import Mathlib

/-!
Verification of the evolutionary trading-bot core (genes, selection,
robot accounting, generation controller) against its specification.

Numbers that are Python floats are modelled as exact rationals (`ℚ`);
values that can be NaN/±∞ in NumPy are modelled by `FVal`.  Python's
reference semantics for list-valued dict fields is modelled by an
explicit store (`Store`) of list objects indexed by `Nat` references.
Randomness is modelled by passing the stream of drawn values explicitly.
-/

namespace BybitEvolution

/-- The value carried by a decision-tree condition (an int such as the
RSI threshold, or a boolean such as `price_above_ema == True`). -/
inductive CondValue where
  | num (n : Int)
  | boolean (b : Bool)
deriving DecidableEq

/-- One decision-tree condition, as built in `genes.mutate` and
`EvolutionManager._generate_random_decision_tree`. -/
structure Condition where
  indicator : String
  op : String
  value : CondValue
  action : String
deriving DecidableEq

/-- A gene as the Python dict in `src/evolution/genes.py`: the scalar
fields are stored by value, `decision_tree` is a *reference* to a list
object held in the store. -/
structure GeneRef where
  trade_percentage : ℚ
  risk_appetite : ℚ
  decision_tree : Nat
deriving DecidableEq

/-- The heap of list objects that gene `decision_tree` fields point at. -/
abbrev Store : Type := List (List Condition)

/-- Dereference a gene's `decision_tree` field. -/
def readTree (s : Store) (g : GeneRef) : List Condition :=
  List.getD s g.decision_tree []

/-- Overwrite the list object at reference `r`. -/
def writeTree (s : Store) (r : Nat) (t : List Condition) : Store :=
  List.set s r t

/-- `np.clip(x, lo, hi)`. -/
def clip (x lo hi : ℚ) : ℚ := min (max x lo) hi

/-- The random draws consumed by one call to `mutate`, in order:
the three gate draws `r1 r2 r3` (`random.random()`), the redrawn
trade percentage, the Gaussian noise for risk appetite, the
delete-vs-append coin `r4`, the deletion index (`random.randint`),
and the freshly assembled random condition. -/
structure MutateDraws where
  r1 : ℚ
  fresh_tp : ℚ
  r2 : ℚ
  noise : ℚ
  r3 : ℚ
  r4 : ℚ
  del_ix : Nat
  new_cond : Condition

/-- `mutate(gene)` from `src/evolution/genes.py` lines 4–34.
`mutated_gene = gene.copy()` is a shallow copy: the returned gene keeps
the same `decision_tree` reference, and the tree mutations (`del`,
`.append`) update the shared list object in the store in place. -/
def mutate (s : Store) (g : GeneRef) (d : MutateDraws) : Store × GeneRef :=
  let tp := if d.r1 < 3/10 then d.fresh_tp else g.trade_percentage
  let ra := if d.r2 < 3/10 then clip (g.risk_appetite + d.noise) (1/10) (9/10)
            else g.risk_appetite
  let t := readTree s g
  let s' :=
    if d.r3 < 2/5 then
      if 2 < t.length then
        if d.r4 < 1/2 then writeTree s g.decision_tree (t.eraseIdx d.del_ix)
        else writeTree s g.decision_tree (t ++ [d.new_cond])
      else s
    else s
  (s', { g with trade_percentage := tp, risk_appetite := ra })

/-- `crossover(gene1, gene2)` from `src/evolution/genes.py` lines 36–50.
Slicing and `+` build a fresh list object, appended to the store. -/
def crossover (s : Store) (g1 g2 : GeneRef) : Store × GeneRef :=
  let t1 := readTree s g1
  let t2 := readTree s g2
  let child_tree := t1.take (t1.length / 2) ++ t2.drop (t2.length / 2)
  (s ++ [child_tree],
   { trade_percentage := (g1.trade_percentage + g2.trade_percentage) / 2,
     risk_appetite := (g1.risk_appetite + g2.risk_appetite) / 2,
     decision_tree := s.length })

theorem readTree_concat (s : Store) (t : List Condition) (g : GeneRef)
    (h : g.decision_tree = s.length) : readTree (s ++ [t]) g = t := by
  simp [readTree, List.getD, h]

theorem readTree_writeTree (s : Store) (g : GeneRef) (t : List Condition)
    (h : g.decision_tree < s.length) :
    readTree (writeTree s g.decision_tree t) g = t := by
  simp [readTree, writeTree, List.getD, List.getElem?_set_self', h]

theorem readTree_length_pos_lt (s : Store) (g : GeneRef)
    (h : 0 < (readTree s g).length) : g.decision_tree < s.length := by
  by_contra hc
  push_neg at hc
  rw [readTree, List.getD] at h
  rw [List.get?_eq_none.mpr hc] at h
  simp at h

/-- Sample conditions used for concrete instances. -/
def condRsiBuy : Condition := ⟨"rsi", "<", .num 30, "buy"⟩

def condRsiSell : Condition := ⟨"rsi", ">", .num 70, "sell"⟩

def condEmaBuy : Condition := ⟨"price_above_ema", "==", .boolean true, "buy"⟩

def condVolBuy : Condition := ⟨"volume", ">", .num 50, "buy"⟩

/-- Store and gene with a two-condition decision tree. -/
def storeLen2 : Store := [[condRsiBuy, condRsiSell]]

def geneLen2 : GeneRef := ⟨1/20, 1/2, 0⟩

/-- Draws that fire the 40% tree gate (`r3 = 0 < 0.4`) and land on the
append side of the inner coin (`r4 = 1 ≥ 0.5`). -/
def drawsAppendSide : MutateDraws :=
  ⟨1, 3/100, 1, 0, 0, 1, 0, condVolBuy⟩

/-- Store, gene and draws where the tree has length 3 and the draws pick
the delete branch (`r3 = 0 < 0.4`, `r4 = 0 < 0.5`, delete index 0). -/
def storeLen3 : Store := [[condRsiBuy, condRsiSell, condEmaBuy]]

def geneLen3 : GeneRef := ⟨1/20, 1/2, 0⟩

def drawsDeleteSide : MutateDraws :=
  ⟨1, 3/100, 1, 0, 0, 0, 0, condVolBuy⟩

/-- C3 counterexample: on a gene whose decision tree has length 2, a draw
that passes the 40% gate and selects the append side of the inner coin
leaves the tree unchanged — the code's `len(tree) > 2` guard encloses
*both* the delete and the append branch, so the append is not reachable
for trees of length ≤ 2, contrary to the claim. -/
theorem mutate_no_append_on_short_tree :
    drawsAppendSide.r3 < 2/5 ∧ ¬ drawsAppendSide.r4 < 1/2
    ∧ (readTree storeLen2 geneLen2).length ≤ 2
    ∧ readTree (mutate storeLen2 geneLen2 drawsAppendSide).1
        (mutate storeLen2 geneLen2 drawsAppendSide).2
        ≠ readTree storeLen2 geneLen2 ++ [drawsAppendSide.new_cond]
    ∧ readTree (mutate storeLen2 geneLen2 drawsAppendSide).1
        (mutate storeLen2 geneLen2 drawsAppendSide).2
        = readTree storeLen2 geneLen2 := by
  refine ⟨by norm_num [drawsAppendSide], by norm_num [drawsAppendSide], by decide, ?_, ?_⟩ <;>
    norm_num [mutate, readTree, drawsAppendSide, storeLen2, geneLen2,
      condRsiBuy, condRsiSell, condVolBuy]

/-- C3 (amended): `mutate` applies three independent probability gates:
with probability 0.3 it redraws `trade_percentage`; with probability 0.3
it adds Gaussian noise to `risk_appetite` clipped to [0.1, 0.9]; with
probability 0.4, *and only when the tree length exceeds 2*, it either
(coin < 0.5) deletes the condition at the drawn index or (coin ≥ 0.5)
appends the freshly drawn condition; a tree of length ≤ 2 is left
unchanged even when the 0.4 gate fires. -/
theorem mutate_gate_structure (s : Store) (g : GeneRef) (d : MutateDraws) :
    (d.r1 < 3/10 → ((mutate s g d).2).trade_percentage = d.fresh_tp)
    ∧ (¬ d.r1 < 3/10 →
        ((mutate s g d).2).trade_percentage = g.trade_percentage)
    ∧ (d.r2 < 3/10 → ((mutate s g d).2).risk_appetite
        = clip (g.risk_appetite + d.noise) (1/10) (9/10))
    ∧ (¬ d.r2 < 3/10 → ((mutate s g d).2).risk_appetite = g.risk_appetite)
    ∧ (d.r3 < 2/5 → 2 < (readTree s g).length → d.r4 < 1/2 →
        readTree (mutate s g d).1 (mutate s g d).2
          = (readTree s g).eraseIdx d.del_ix)
    ∧ (d.r3 < 2/5 → 2 < (readTree s g).length → ¬ d.r4 < 1/2 →
        readTree (mutate s g d).1 (mutate s g d).2
          = readTree s g ++ [d.new_cond])
    ∧ (¬ d.r3 < 2/5 ∨ (readTree s g).length ≤ 2 →
        readTree (mutate s g d).1 (mutate s g d).2 = readTree s g) := by
  have href : ((mutate s g d).2).decision_tree = g.decision_tree := rfl
  refine ⟨?_, ?_, ?_, ?_, ?_, ?_, ?_⟩
  · intro h1; simp [mutate, h1]
  · intro h1; simp [mutate, h1]
  · intro h2; simp [mutate, h2]
  · intro h2; simp [mutate, h2]
  · intro h3 hlen h4
    have hlt : g.decision_tree < s.length :=
      readTree_length_pos_lt s g (by omega)
    have hs : (mutate s g d).1
        = writeTree s g.decision_tree ((readTree s g).eraseIdx d.del_ix) := by
      simp only [mutate]
      rw [if_pos h3, if_pos hlen, if_pos h4]
    rw [hs]
    have heq : readTree (writeTree s g.decision_tree
        ((readTree s g).eraseIdx d.del_ix)) (mutate s g d).2
        = (readTree s g).eraseIdx d.del_ix := by
      apply readTree_writeTree
      exact hlt
    exact heq
  · intro h3 hlen h4
    have hlt : g.decision_tree < s.length :=
      readTree_length_pos_lt s g (by omega)
    have hs : (mutate s g d).1
        = writeTree s g.decision_tree (readTree s g ++ [d.new_cond]) := by
      simp only [mutate]
      rw [if_pos h3, if_pos hlen, if_neg h4]
    rw [hs]
    have heq : readTree (writeTree s g.decision_tree
        (readTree s g ++ [d.new_cond])) (mutate s g d).2
        = readTree s g ++ [d.new_cond] := by
      apply readTree_writeTree
      exact hlt
    exact heq
  · intro h
    have hs : (mutate s g d).1 = s := by
      simp only [mutate]
      by_cases h3 : d.r3 < 2/5
      · rw [if_pos h3]
        rcases h with h3' | hlen
        · exact absurd h3 h3'
        · rw [if_neg (by omega)]
      · rw [if_neg h3]
    rw [hs]
    simp [readTree, href]

/-- C3 witness: concrete evaluation of the amended gate structure on the
length-3 tree with the delete-side draws. -/
theorem mutate_gate_structure_witness :
    readTree (mutate storeLen3 geneLen3 drawsDeleteSide).1
        (mutate storeLen3 geneLen3 drawsDeleteSide).2
      = (readTree storeLen3 geneLen3).eraseIdx drawsDeleteSide.del_ix :=
  (mutate_gate_structure storeLen3 geneLen3 drawsDeleteSide).2.2.2.2.1
    (by norm_num [drawsDeleteSide]) (by decide) (by norm_num [drawsDeleteSide])

/-- C10: `mutated_gene = gene.copy()` is a shallow copy, so the returned
gene's `decision_tree` is the very same list object as the input's; any
tree mutation therefore acts on the shared object, and on concrete draws
that fire the tree gate the input gene observes a changed tree after the
call. -/
theorem mutate_tree_aliasing :
    (∀ (s : Store) (g : GeneRef) (d : MutateDraws),
        ((mutate s g d).2).decision_tree = g.decision_tree)
    ∧ (∀ (s : Store) (g : GeneRef) (d : MutateDraws),
        readTree (mutate s g d).1 g
          = readTree (mutate s g d).1 (mutate s g d).2)
    ∧ readTree (mutate storeLen3 geneLen3 drawsDeleteSide).1 geneLen3
        ≠ readTree storeLen3 geneLen3 := by
  refine ⟨fun s g d => rfl, fun s g d => rfl, ?_⟩
  norm_num [mutate, readTree, writeTree, drawsDeleteSide, storeLen3, geneLen3,
    condRsiBuy, condRsiSell, condEmaBuy]

/-- Store with a length-5 tree (object 0) and a length-2 tree (object 1),
for exhibiting a child tree length differing from both parents'. -/
def storeCross : Store :=
  [[condRsiBuy, condRsiSell, condEmaBuy, condVolBuy, condRsiBuy],
   [condRsiBuy, condRsiSell]]

def geneCrossA : GeneRef := ⟨1/25, 1/5, 0⟩

def geneCrossB : GeneRef := ⟨2/25, 4/5, 1⟩

/-- C7: `crossover` takes the exact arithmetic mean of the parents'
`trade_percentage` and `risk_appetite`, and builds the child tree as the
first `⌊|a|/2⌋` conditions of parent A's tree followed by parent B's
tree from index `⌊|b|/2⌋` on, each half from that parent's own length;
on concrete parents of tree lengths 5 and 2 the child length (3) equals
neither parent's. -/
theorem crossover_spec (s : Store) (g1 g2 : GeneRef) :
    ((crossover s g1 g2).2).trade_percentage
        = (g1.trade_percentage + g2.trade_percentage) / 2
    ∧ ((crossover s g1 g2).2).risk_appetite
        = (g1.risk_appetite + g2.risk_appetite) / 2
    ∧ readTree (crossover s g1 g2).1 (crossover s g1 g2).2
        = (readTree s g1).take ((readTree s g1).length / 2)
          ++ (readTree s g2).drop ((readTree s g2).length / 2)
    ∧ (readTree (crossover storeCross geneCrossA geneCrossB).1
          (crossover storeCross geneCrossA geneCrossB).2).length
        ≠ (readTree storeCross geneCrossA).length
    ∧ (readTree (crossover storeCross geneCrossA geneCrossB).1
          (crossover storeCross geneCrossA geneCrossB).2).length
        ≠ (readTree storeCross geneCrossB).length := by
  refine ⟨rfl, rfl, readTree_concat s _ _ rfl, ?_, ?_⟩ <;>
    norm_num [crossover, readTree, storeCross, geneCrossA, geneCrossB]

/-! ## Continuation predicate (`src/core/master.py` lines 286–308) -/

/-- One entry of `self.best_robots` as read by the two continuation
predicates. -/
structure BestRobot where
  fitness : ℚ
  current_profit : ℚ

/-- The configuration keys the predicates read. -/
structure EvoConfig where
  max_generations : Option Nat
  target_fitness : Option ℚ
  initial_balance : ℚ

/-- The manager state the predicates read. -/
structure EvoState where
  config : EvoConfig
  generation : Nat
  best_robots : List BestRobot

/-- The first `should_continue_evolution` (master.py lines 286–295):
generation cap from `config.get('max_generations', 20)` plus a
target-fitness early exit.  In Python this definition is *shadowed* by
the second one below and is never called. -/
def should_continue_evolution_v1 (st : EvoState) : Bool :=
  if st.config.max_generations.getD 20 ≤ st.generation then false
  else if 0 < st.best_robots.length
      ∧ st.config.target_fitness.getD (3/10)
        < (st.best_robots.getLastD ⟨0, 0⟩).fitness then false
  else true

/-- The *effective* `should_continue_evolution` (master.py lines
297–308): in Python the later `def` of the same name replaces the
earlier one.  The generation cap is the hardcoded constant 100, and the
profit check returns `True` on both of its branches. -/
def should_continue_evolution (st : EvoState) : Bool :=
  if 100 ≤ st.generation then false
  else if 0 < st.best_robots.length then
    if st.config.initial_balance * (1/10)
        ≤ (st.best_robots.getLastD ⟨0, 0⟩).current_profit then true
    else true
  else true

/-- State with `max_generations = 20` configured and the generation
counter exactly at that configured cap. -/
def evoStateAtCap : EvoState :=
  { config := { max_generations := some 20, target_fitness := none,
                initial_balance := 1000 },
    generation := 20,
    best_robots := [] }

/-- C4 counterexample: with `max_generations = 20` in the configuration
and the generation counter at 20, the effective
`should_continue_evolution` still returns `True` — the run is *not*
stopped at the configured cap, because the live definition compares
against the hardcoded constant 100 and never reads `max_generations`. -/
theorem should_continue_past_configured_cap :
    evoStateAtCap.config.max_generations = some 20
    ∧ evoStateAtCap.config.max_generations.getD 20 ≤ evoStateAtCap.generation
    ∧ should_continue_evolution evoStateAtCap = true := by
  refine ⟨rfl, le_refl _, ?_⟩
  norm_num [should_continue_evolution, evoStateAtCap]

/-- C4 (amended): the effective continuation predicate stops the run
exactly when the generation counter reaches the hardcoded cap of 100
(not the configured `max_generations`); no other condition ends or
extends the run — the profit comparison returns `True` on both
branches. -/
theorem should_continue_evolution_iff (st : EvoState) :
    should_continue_evolution st = false ↔ 100 ≤ st.generation := by
  unfold should_continue_evolution
  by_cases h : 100 ≤ st.generation
  · simp [h]
  · simp [h, ite_self]

/-! ## Fitness-weight configuration (`src/core/master.py` lines
176–183, `src/config/settings.py` lines 26–47) -/

/-- The six weight keys read by `evaluate_generation`. -/
def requiredWeightKeys : List String :=
  ["profit", "sharpe_ratio", "max_drawdown", "profit_factor", "win_rate",
   "consistency"]

/-- The `fitness_weights` dict. -/
abbrev FitnessWeights := List (String × ℚ)

def lookupWeight (w : FitnessWeights) (k : String) : Option ℚ :=
  (w.find? fun p => p.1 == k).map Prod.snd

/-- `config['fitness_weights'][key]`: a missing key raises `KeyError`,
modelled as `Except.error` carrying the key. -/
def getWeight (w : FitnessWeights) (k : String) : Except String ℚ :=
  match lookupWeight w k with
  | some q => .ok q
  | none => .error k

/-- The per-robot metric components computed on master.py lines 160–173,
before weighting. -/
structure FitnessComponents where
  profit_component : ℚ
  sharpe_ratio : ℚ
  risk_component : ℚ
  profit_factor : ℚ
  win_rate : ℚ
  consistency : ℚ

/-- master.py lines 176–183: the weighted composite fitness; each dict
subscript can raise `KeyError` for a missing key. -/
def computeFitness (w : FitnessWeights) (c : FitnessComponents) :
    Except String ℚ :=
  match getWeight w "profit" with
  | .error k => .error k
  | .ok wp =>
    match getWeight w "sharpe_ratio" with
    | .error k => .error k
    | .ok ws =>
      match getWeight w "max_drawdown" with
      | .error k => .error k
      | .ok wd =>
        match getWeight w "profit_factor" with
        | .error k => .error k
        | .ok wf =>
          match getWeight w "win_rate" with
          | .error k => .error k
          | .ok ww =>
            match getWeight w "consistency" with
            | .error k => .error k
            | .ok wc =>
              .ok (wp * c.profit_component + ws * c.sharpe_ratio
                + wd * c.risk_component + wf * c.profit_factor
                + ww * c.win_rate + wc * c.consistency)

/-- The configuration fields `EvolutionManager.__init__` (with
`create_initial_population`) actually reads.  `fitness_weights` is
stored but never inspected during construction. -/
structure ManagerConfig where
  population_size : Option Nat
  initial_balance : Option ℚ
  fitness_weights : FitnessWeights

/-- `EvolutionManager.__init__` + `create_initial_population`
(master.py lines 17–47): the dict subscripts it performs are
`config['population_size']` and `config['initial_balance']`; the
fitness weights are not validated at construction. -/
def evolution_manager_init (cfg : ManagerConfig) :
    Except String (Nat × ℚ) :=
  match cfg.population_size with
  | none => .error "population_size"
  | some ps =>
    match cfg.initial_balance with
    | none => .error "initial_balance"
    | some ib => .ok (ps, ib)

/-- `get_default_config()` from `src/config/settings.py` lines 26–47:
only three of the six weight keys are present. -/
def get_default_config : ManagerConfig :=
  { population_size := some 50,
    initial_balance := some 1000,
    fitness_weights :=
      [("profit", 1), ("sharpe_ratio", 1/2), ("max_drawdown", -(1/2))] }

/-- C5 counterexample: the shipped default configuration lacks the
`profit_factor` (and `win_rate`, `consistency`) weight keys, yet
`EvolutionManager` construction succeeds — a missing weight key is not
detected at construction time; it surfaces only when
`evaluate_generation` computes a fitness, as a `KeyError`. -/
theorem init_accepts_missing_weight_key :
    lookupWeight get_default_config.fitness_weights "profit_factor" = none
    ∧ evolution_manager_init get_default_config = .ok (50, 1000)
    ∧ computeFitness get_default_config.fitness_weights ⟨1, 1, 1, 1, 1, 1⟩
        = .error "profit_factor" := by
  refine ⟨rfl, rfl, rfl⟩

/-- C5 (amended): whenever one of the six required weight keys is
missing, the fitness computation fails with a `KeyError` naming a
missing key and never returns a value — a missing weight is never
silently treated as zero — while construction succeeds regardless of
the weights: the error is raised at evaluation time, not at
construction time. -/
theorem computeFitness_missing_key (cfg : ManagerConfig)
    (c : FitnessComponents) (ps : Nat) (ib : ℚ)
    (hps : cfg.population_size = some ps)
    (hib : cfg.initial_balance = some ib)
    (h : ∃ k ∈ requiredWeightKeys, lookupWeight cfg.fitness_weights k = none) :
    evolution_manager_init cfg = .ok (ps, ib)
    ∧ (∃ k, computeFitness cfg.fitness_weights c = .error k
        ∧ lookupWeight cfg.fitness_weights k = none)
    ∧ ∀ q : ℚ, computeFitness cfg.fitness_weights c ≠ .ok q := by
  have hinit : evolution_manager_init cfg = .ok (ps, ib) := by
    rw [evolution_manager_init, hps, hib]
  have hkey : ∃ k, computeFitness cfg.fitness_weights c = .error k
      ∧ lookupWeight cfg.fitness_weights k = none := by
    cases h1 : lookupWeight cfg.fitness_weights "profit" with
    | none => exact ⟨"profit", by rw [computeFitness, getWeight, h1], h1⟩
    | some w1 =>
      cases h2 : lookupWeight cfg.fitness_weights "sharpe_ratio" with
      | none =>
        exact ⟨"sharpe_ratio",
          by rw [computeFitness, getWeight, h1]; rw [getWeight, h2], h2⟩
      | some w2 =>
        cases h3 : lookupWeight cfg.fitness_weights "max_drawdown" with
        | none =>
          exact ⟨"max_drawdown",
            by rw [computeFitness, getWeight, h1]; rw [getWeight, h2];
               rw [getWeight, h3], h3⟩
        | some w3 =>
          cases h4 : lookupWeight cfg.fitness_weights "profit_factor" with
          | none =>
            exact ⟨"profit_factor",
              by rw [computeFitness, getWeight, h1]; rw [getWeight, h2];
                 rw [getWeight, h3]; rw [getWeight, h4], h4⟩
          | some w4 =>
            cases h5 : lookupWeight cfg.fitness_weights "win_rate" with
            | none =>
              exact ⟨"win_rate",
                by rw [computeFitness, getWeight, h1]; rw [getWeight, h2];
                   rw [getWeight, h3]; rw [getWeight, h4];
                   rw [getWeight, h5], h5⟩
            | some w5 =>
              cases h6 : lookupWeight cfg.fitness_weights "consistency" with
              | none =>
                exact ⟨"consistency",
                  by rw [computeFitness, getWeight, h1]; rw [getWeight, h2];
                     rw [getWeight, h3]; rw [getWeight, h4];
                     rw [getWeight, h5]; rw [getWeight, h6], h6⟩
              | some w6 =>
                exfalso
                rcases h with ⟨k, hk, hnone⟩
                fin_cases hk <;> simp_all
  refine ⟨hinit, hkey, ?_⟩
  rcases hkey with ⟨k, herr, _⟩
  intro q hq
  rw [herr] at hq
  exact Except.noConfusion hq

/-- C5 witness: the amended theorem evaluated on the default
configuration. -/
theorem computeFitness_missing_key_witness :
    evolution_manager_init get_default_config = .ok (50, 1000)
    ∧ ∀ q : ℚ, computeFitness get_default_config.fitness_weights
        ⟨1, 1, 1, 1, 1, 1⟩ ≠ .ok q := by
  have h := computeFitness_missing_key get_default_config
    ⟨1, 1, 1, 1, 1, 1⟩ 50 1000 rfl rfl
    ⟨"profit_factor", by simp [requiredWeightKeys], rfl⟩
  exact ⟨h.1, h.2.2⟩

/-! ## Selection (`src/evolution/selection.py`) -/

/-- A Python float as consumed by `select_parents`: either an exact
finite value or a non-finite one (NaN or ±∞). -/
inductive FVal where
  | fin (q : ℚ)
  | nonfinite
deriving DecidableEq

/-- The rational carried by a finite value (0 for non-finite; only ever
used under an `allFinite` guard). -/
def FVal.toQ : FVal → ℚ
  | .fin q => q
  | .nonfinite => 0

def FVal.isFinite : FVal → Bool
  | .fin _ => true
  | .nonfinite => false

/-- A robot as seen by selection: `robot_id` stands for object identity,
`fitness` is the float read on line 24 of `selection.py`. -/
structure Robot where
  robot_id : Nat
  fitness : FVal
deriving DecidableEq

instance : Inhabited Robot := ⟨⟨0, .fin 0⟩⟩

/-- The `1e-12` epsilon added to the shifted fitness values. -/
def epsShift : ℚ := 1 / 10 ^ 12

/-- `np.min` over a (nonempty) list of rationals. -/
def minQ (l : List ℚ) : ℚ := l.foldr min (l.headD 0)

/-- `elite_size = max(0, min(int(elite_size), n))` (line 13). -/
def eliteClamp (k : Int) (n : Nat) : Nat := (max 0 (min k (n : Int))).toNat

/-- `np.isfinite` of the total: in exact rational arithmetic a sum of
finite values is always finite, and any NaN/±∞ input propagates into
the total, so the total is finite iff every input is. -/
def allFinite (l : List FVal) : Bool := l.all FVal.isFinite

/-- `np.ones(n)/n`, the uniform fallback distribution (line 42). -/
def uniformProbs (n : Nat) : List ℚ := List.replicate n (1 / (n : ℚ))

/-- Lines 24–26 of `selection.py`: the fitness values of the non-elite
candidates `population[elite_size:]`. -/
def candFitness (population : List Robot) (elite_size : Int) : List FVal :=
  (population.drop (eliteClamp elite_size population.length)).map
    Robot.fitness

/-- Lines 32–37: shift the candidate fitness values so the minimum
becomes `1e-12` when it is negative, else add `1e-12` uniformly. -/
def shiftedFitness (qs : List ℚ) : List ℚ :=
  if minQ qs < 0 then qs.map fun x => x - minQ qs + epsShift
  else qs.map fun x => x + epsShift

/-- Lines 46–49: `np.clip(probabilities, 0.0, None)` followed by the
defensive renormalisation by the clipped sum. -/
def clipRenorm (p : List ℚ) : List ℚ :=
  (p.map fun x => max x 0).map fun x =>
    x / (if 0 < (p.map fun x => max x 0).sum
         then (p.map fun x => max x 0).sum else 1)

/-- Lines 32–49: the probability vector handed to `np.random.choice`,
including the uniform fallback for a non-finite or non-positive total
and the clip/renormalise step. -/
def selectionProbs (cand : List FVal) : List ℚ :=
  if allFinite cand then
    if (shiftedFitness (cand.map FVal.toQ)).sum ≤ 0 then
      uniformProbs cand.length
    else
      clipRenorm ((shiftedFitness (cand.map FVal.toQ)).map
        fun x => x / (shiftedFitness (cand.map FVal.toQ)).sum)
  else uniformProbs cand.length

/-- `select_parents(population, elite_size)` from
`src/evolution/selection.py` lines 5–58.  The outcome of
`np.random.choice(candidates, size=sample_size, p=probabilities,
replace=False)` is modelled by the index list `idxs`: sampling without
replacement returns `sample_size` pairwise-distinct in-range positions
of `candidates` (those are the hypotheses of the theorems below). -/
def select_parents (population : List Robot) (elite_size : Int)
    (idxs : List Nat) : List Robot :=
  let n := population.length
  if n = 0 then []
  else
    let es := eliteClamp elite_size n
    let elites := population.take es
    let remaining := n - es
    if remaining = 0 then elites
    else
      let candidates := population.drop es
      if candidates.length = 0 then elites
      else
        let sample_size := min remaining candidates.length
        elites ++ (idxs.take sample_size).map fun i => candidates.getD i default

theorem eliteClamp_eq_toNat (k : Int) (n : Nat) :
    eliteClamp k n = (min k (n : Int)).toNat := by
  unfold eliteClamp
  omega

theorem eliteClamp_le (k : Int) (n : Nat) : eliteClamp k n ≤ n := by
  unfold eliteClamp
  omega

/-- Unfolding of `select_parents` as elites-prefix plus sampled suffix,
shared by the theorems about selection. -/
theorem select_parents_eq (population : List Robot) (elite_size : Int)
    (idxs : List Nat)
    (hlen : idxs.length
      = population.length - eliteClamp elite_size population.length) :
    select_parents population elite_size idxs
      = population.take (eliteClamp elite_size population.length)
        ++ idxs.map (fun i =>
            (population.drop (eliteClamp elite_size population.length)).getD
              i default) := by
  have hdroplen :
      (population.drop (eliteClamp elite_size population.length)).length
      = population.length - eliteClamp elite_size population.length := by
    simp
  by_cases h0 : population.length = 0
  · have hpop : population = [] := List.length_eq_zero.mp h0
    subst hpop
    have hidx0 : idxs = [] := List.length_eq_zero.mp (by simpa using hlen)
    subst hidx0
    simp [select_parents]
  · simp only [select_parents]
    rw [if_neg h0]
    by_cases hrem :
        population.length - eliteClamp elite_size population.length = 0
    · have hidx0 : idxs = [] := List.length_eq_zero.mp (by omega)
      subst hidx0
      simp [hrem]
    · rw [if_neg hrem]
      rw [if_neg (by rw [hdroplen]; exact hrem)]
      rw [hdroplen, min_self]
      congr 1
      rw [← hlen, List.take_length]

/-- C1: on any duplicate-free population and any integer elite size, with
`idxs` the outcome of the without-replacement draw, `select_parents`
returns exactly the clamped-to-range top `min(k, n)` robots of the input
(the elites, by identity, as a prefix), followed by `n − min(k, n)`
robots taken at the drawn positions of the non-elite remainder; the
result has no duplicates, the empty population yields the empty list,
and when no candidates remain the elites alone are returned. -/
theorem select_parents_spec (population : List Robot) (elite_size : Int)
    (idxs : List Nat)
    (hnodup : population.Nodup)
    (hlen : idxs.length
      = population.length - eliteClamp elite_size population.length)
    (hrange : ∀ i ∈ idxs,
      i < population.length - eliteClamp elite_size population.length)
    (hidx : idxs.Nodup) :
    select_parents population elite_size idxs
      = population.take (min elite_size (population.length : Int)).toNat
        ++ idxs.map (fun i =>
            (population.drop (eliteClamp elite_size population.length)).getD
              i default)
    ∧ (idxs.map (fun i =>
          (population.drop (eliteClamp elite_size population.length)).getD
            i default)).length
        = population.length - eliteClamp elite_size population.length
    ∧ (∀ r ∈ idxs.map (fun i =>
          (population.drop (eliteClamp elite_size population.length)).getD
            i default),
        r ∈ population.drop (eliteClamp elite_size population.length))
    ∧ (select_parents population elite_size idxs).Nodup := by
  have hesn : eliteClamp elite_size population.length ≤ population.length :=
    eliteClamp_le _ _
  have hdroplen :
      (population.drop (eliteClamp elite_size population.length)).length
      = population.length - eliteClamp elite_size population.length := by
    simp
  have hmem : ∀ r ∈ idxs.map (fun i =>
        (population.drop (eliteClamp elite_size population.length)).getD
          i default),
      r ∈ population.drop (eliteClamp elite_size population.length) := by
    intro r hr
    rcases List.mem_map.mp hr with ⟨i, hi, rfl⟩
    have hilt : i <
        (population.drop (eliteClamp elite_size population.length)).length := by
      rw [hdroplen]; exact hrange i hi
    rw [List.getD_eq_getElem _ _ hilt]
    exact List.getElem_mem _
  have hself := select_parents_eq population elite_size idxs hlen
  have hnodup_drop :
      (population.drop (eliteClamp elite_size population.length)).Nodup :=
    (List.drop_sublist _ population).nodup hnodup
  have hnodup_sel : (idxs.map (fun i =>
      (population.drop (eliteClamp elite_size population.length)).getD
        i default)).Nodup := by
    apply List.Nodup.map_on _ hidx
    intro i hi j hj hij
    have hilt : i <
        (population.drop (eliteClamp elite_size population.length)).length := by
      rw [hdroplen]; exact hrange i hi
    have hjlt : j <
        (population.drop (eliteClamp elite_size population.length)).length := by
      rw [hdroplen]; exact hrange j hj
    rw [List.getD_eq_getElem _ _ hilt, List.getD_eq_getElem _ _ hjlt] at hij
    exact (List.Nodup.getElem_inj_iff hnodup_drop).mp hij
  have hnodup_res : (select_parents population elite_size idxs).Nodup := by
    rw [hself]
    have hsplit : (population.take (eliteClamp elite_size population.length)
        ++ population.drop (eliteClamp elite_size population.length)).Nodup := by
      rw [List.take_append_drop]; exact hnodup
    apply List.Nodup.append
    · exact (List.take_sublist _ population).nodup hnodup
    · exact hnodup_sel
    · intro a ha hb
      exact List.disjoint_of_nodup_append hsplit ha (hmem a hb)
  refine ⟨?_, ?_, hmem, hnodup_res⟩
  · rw [hself, ← eliteClamp_eq_toNat]
  · rw [List.length_map, hlen]

theorem foldr_min_le_init (l : List ℚ) (a : ℚ) : l.foldr min a ≤ a := by
  induction l with
  | nil => simp
  | cons x xs ih => exact le_trans (min_le_right _ _) ih

theorem foldr_min_le_mem (l : List ℚ) (a x : ℚ) (hx : x ∈ l) :
    l.foldr min a ≤ x := by
  induction l with
  | nil => cases hx
  | cons y ys ih =>
    rcases List.mem_cons.mp hx with rfl | h
    · exact min_le_left _ _
    · exact le_trans (min_le_right _ _) (ih h)

theorem minQ_le_mem (l : List ℚ) (x : ℚ) (hx : x ∈ l) : minQ l ≤ x :=
  foldr_min_le_mem l _ x hx

theorem epsShift_pos : 0 < epsShift := by norm_num [epsShift]

theorem shiftedFitness_length (qs : List ℚ) :
    (shiftedFitness qs).length = qs.length := by
  unfold shiftedFitness
  split <;> simp

theorem shiftedFitness_ge_eps (qs : List ℚ) (x : ℚ)
    (hx : x ∈ shiftedFitness qs) : epsShift ≤ x := by
  unfold shiftedFitness at hx
  split at hx
  · rcases List.mem_map.mp hx with ⟨q, hq, rfl⟩
    have := minQ_le_mem qs q hq
    linarith
  · rcases List.mem_map.mp hx with ⟨q, hq, rfl⟩
    have h1 := minQ_le_mem qs q hq
    have h2 : ¬ minQ qs < 0 := by assumption
    push_neg at h2
    linarith

theorem shiftedFitness_sum_pos (qs : List ℚ) (hne : qs ≠ []) :
    0 < (shiftedFitness qs).sum := by
  apply List.sum_pos
  · intro x hx
    exact lt_of_lt_of_le epsShift_pos (shiftedFitness_ge_eps qs x hx)
  · intro hc
    apply hne
    have := shiftedFitness_length qs
    rw [hc] at this
    exact List.length_eq_zero.mp this.symm

theorem sum_map_div (l : List ℚ) (c : ℚ) :
    (l.map (fun x => x / c)).sum = l.sum / c := by
  induction l with
  | nil => simp
  | cons a t ih => simp [ih, div_add_div_same]

/-- The clip/renormalise step is the identity on a vector of nonnegative
entries summing to 1. -/
theorem clipRenorm_id (p : List ℚ) (hpos : ∀ x ∈ p, 0 ≤ x)
    (hsum : p.sum = 1) : clipRenorm p = p := by
  unfold clipRenorm
  have hclip : p.map (fun x => max x 0) = p := by
    have : p.map (fun x => max x 0) = p.map id := by
      apply List.map_congr_left
      intro x hx
      exact max_eq_left (hpos x hx)
    rw [this, List.map_id]
  rw [hclip, hsum]
  norm_num

/-- In the all-finite, nonempty case the clip/renormalise steps of
`selectionProbs` are the identity and the vector is exactly the shifted
fitness values divided by their sum. -/
theorem selectionProbs_finite_eq (cand : List FVal)
    (hfin : allFinite cand = true) (hne : cand ≠ []) :
    selectionProbs cand
      = (shiftedFitness (cand.map FVal.toQ)).map
          (fun x => x / (shiftedFitness (cand.map FVal.toQ)).sum) := by
  have hqne : cand.map FVal.toQ ≠ [] := by
    intro hc
    exact hne (List.map_eq_nil_iff.mp hc)
  have htot : 0 < (shiftedFitness (cand.map FVal.toQ)).sum :=
    shiftedFitness_sum_pos _ hqne
  unfold selectionProbs
  rw [if_pos hfin, if_neg (by push_neg; exact htot)]
  apply clipRenorm_id
  · intro x hx
    rcases List.mem_map.mp hx with ⟨y, hy, rfl⟩
    exact div_nonneg (le_trans (le_of_lt epsShift_pos)
      (shiftedFitness_ge_eps _ y hy)) (le_of_lt htot)
  · rw [sum_map_div, div_self (ne_of_gt htot)]

/-- Every entry of the probability vector is strictly positive. -/
theorem selectionProbs_pos (cand : List FVal) (p : ℚ)
    (hp : p ∈ selectionProbs cand) : 0 < p := by
  by_cases hne : cand = []
  · subst hne
    simp [selectionProbs, allFinite, shiftedFitness, minQ, uniformProbs,
      epsShift] at hp
  by_cases hfin : allFinite cand = true
  · rw [selectionProbs_finite_eq cand hfin hne] at hp
    rcases List.mem_map.mp hp with ⟨x, hx, rfl⟩
    have hqne : cand.map FVal.toQ ≠ [] := by
      intro hc
      exact hne (List.map_eq_nil_iff.mp hc)
    exact div_pos (lt_of_lt_of_le epsShift_pos (shiftedFitness_ge_eps _ x hx))
      (shiftedFitness_sum_pos _ hqne)
  · have huni : selectionProbs cand = uniformProbs cand.length := by
      unfold selectionProbs
      rw [if_neg hfin]
    rw [huni, uniformProbs] at hp
    have hp' := List.eq_of_mem_replicate hp
    subst hp'
    have hlen0 : 0 < cand.length := List.length_pos.mpr hne
    have hc : (0 : ℚ) < (cand.length : ℚ) := by exact_mod_cast hlen0
    positivity

theorem clipRenorm_length (p : List ℚ) : (clipRenorm p).length = p.length := by
  simp [clipRenorm]

theorem selectionProbs_length (cand : List FVal) :
    (selectionProbs cand).length = cand.length := by
  unfold selectionProbs
  split
  · split
    · simp [uniformProbs]
    · simp [clipRenorm_length, shiftedFitness_length]
  · simp [uniformProbs]

/-- C2: the uniform fallback and the impossibility of the
without-replacement sampler failing.  If the total of the shifted
fitness values is non-finite (any NaN/∞ fitness) or non-positive, the
vector handed to the sampler is the uniform distribution over all
remaining candidates; had the count of strictly-positive-probability
candidates been below the required sample size the vector would likewise
be uniform (vacuously — every entry built is strictly positive); the
count of strictly positive entries always covers the required sample
size `min(remaining, |candidates|)`, so `np.random.choice` never lacks
positive-probability entries; and `select_parents` returns a full-length
result. -/
theorem select_parents_uniform_fallback (population : List Robot)
    (elite_size : Int) (idxs : List Nat)
    (hlen : idxs.length
      = population.length - eliteClamp elite_size population.length) :
    (allFinite (candFitness population elite_size) = false →
      selectionProbs (candFitness population elite_size)
        = uniformProbs (candFitness population elite_size).length)
    ∧ (allFinite (candFitness population elite_size) = true →
        (shiftedFitness ((candFitness population elite_size).map
          FVal.toQ)).sum ≤ 0 →
        selectionProbs (candFitness population elite_size)
          = uniformProbs (candFitness population elite_size).length)
    ∧ ((selectionProbs (candFitness population elite_size)).countP
          (fun p => decide (0 < p)) < (candFitness population elite_size).length →
        selectionProbs (candFitness population elite_size)
          = uniformProbs (candFitness population elite_size).length)
    ∧ min (population.length - eliteClamp elite_size population.length)
          (candFitness population elite_size).length
        ≤ (selectionProbs (candFitness population elite_size)).countP
            (fun p => decide (0 < p))
    ∧ (select_parents population elite_size idxs).length
        = population.length := by
  have hcount : (selectionProbs (candFitness population elite_size)).countP
      (fun p => decide (0 < p))
      = (candFitness population elite_size).length := by
    rw [← selectionProbs_length (candFitness population elite_size)]
    apply List.countP_eq_length.mpr
    intro p hp
    simpa using selectionProbs_pos _ p hp
  refine ⟨?_, ?_, ?_, ?_, ?_⟩
  · intro hfin
    unfold selectionProbs
    rw [if_neg (by rw [hfin]; simp)]
  · intro hfin htot
    unfold selectionProbs
    rw [if_pos hfin, if_pos htot]
  · intro hlt
    rw [hcount] at hlt
    exact absurd hlt (lt_irrefl _)
  · rw [hcount]
    exact min_le_right _ _
  · rw [select_parents_eq population elite_size idxs hlen]
    have hes := eliteClamp_le elite_size population.length
    simp only [List.length_append, List.length_map, List.length_take, hlen]
    omega

/-- C2 witness: a two-robot population with one NaN fitness, elite size
1, sampling the single candidate position. -/
theorem select_parents_uniform_fallback_witness :
    allFinite (candFitness [⟨0, .fin 5⟩, ⟨1, .nonfinite⟩] 1) = false
    ∧ selectionProbs (candFitness [⟨0, .fin 5⟩, ⟨1, .nonfinite⟩] 1)
        = uniformProbs 1
    ∧ (select_parents [⟨0, .fin 5⟩, ⟨1, .nonfinite⟩] 1 [0]).length = 2 := by
  have h := select_parents_uniform_fallback
    [⟨0, .fin 5⟩, ⟨1, .nonfinite⟩] 1 [0] (by decide)
  have hfin : allFinite (candFitness [⟨0, .fin 5⟩, ⟨1, .nonfinite⟩] 1)
      = false := by decide
  refine ⟨hfin, ?_, h.2.2.2.2⟩
  have huni := h.1 hfin
  have hc1 : (candFitness [⟨0, .fin 5⟩, ⟨1, .nonfinite⟩] 1).length = 1 := by
    decide
  rw [huni, hc1]

/-- C8: over a population whose fitness values are all finite and
strictly negative (with at least one non-elite candidate), the built
probability vector is exactly the min-shift-to-epsilon normalisation:
all values are shifted by `−min + 1e-12` and divided by the sum, every
entry lies in (0, 1], and the vector covers all candidates — nothing
about the construction can raise. -/
theorem select_probs_all_negative (population : List Robot)
    (elite_size : Int)
    (hcand : eliteClamp elite_size population.length < population.length)
    (hneg : ∀ r ∈ population, ∃ q : ℚ, r.fitness = .fin q ∧ q < 0) :
    selectionProbs (candFitness population elite_size)
      = (((candFitness population elite_size).map FVal.toQ).map
          (fun x => x - minQ ((candFitness population elite_size).map
            FVal.toQ) + epsShift)).map
          (fun x => x / (shiftedFitness ((candFitness population
            elite_size).map FVal.toQ)).sum)
    ∧ (∀ p ∈ selectionProbs (candFitness population elite_size),
        0 < p ∧ p ≤ 1)
    ∧ (selectionProbs (candFitness population elite_size)).length
        = (candFitness population elite_size).length := by
  have hdrop : ∀ r ∈ population.drop (eliteClamp elite_size
      population.length), r ∈ population := fun r hr =>
    List.mem_of_mem_drop hr
  have hnegc : ∀ v ∈ candFitness population elite_size,
      ∃ q : ℚ, v = .fin q ∧ q < 0 := by
    intro v hv
    rcases List.mem_map.mp hv with ⟨r, hr, rfl⟩
    exact hneg r (hdrop r hr)
  have hne : candFitness population elite_size ≠ [] := by
    unfold candFitness
    intro hc
    have := congrArg List.length hc
    simp at this
    omega
  have hfin : allFinite (candFitness population elite_size) = true := by
    unfold allFinite
    rw [List.all_eq_true]
    intro v hv
    rcases hnegc v hv with ⟨q, rfl, _⟩
    rfl
  have hqne : (candFitness population elite_size).map FVal.toQ ≠ [] := by
    intro hc
    exact hne (List.map_eq_nil_iff.mp hc)
  have hqneg : ∀ q ∈ (candFitness population elite_size).map FVal.toQ,
      q < 0 := by
    intro q hq
    rcases List.mem_map.mp hq with ⟨v, hv, rfl⟩
    rcases hnegc v hv with ⟨q', rfl, hq'⟩
    exact hq'
  have hmin : minQ ((candFitness population elite_size).map FVal.toQ) < 0 := by
    rcases List.exists_mem_of_ne_nil _ hqne with ⟨q, hq⟩
    exact lt_of_le_of_lt (minQ_le_mem _ q hq) (hqneg q hq)
  have hshape : shiftedFitness ((candFitness population elite_size).map
      FVal.toQ) = ((candFitness population elite_size).map FVal.toQ).map
        (fun x => x - minQ ((candFitness population elite_size).map
          FVal.toQ) + epsShift) := by
    unfold shiftedFitness
    rw [if_pos hmin]
  have heq := selectionProbs_finite_eq _ hfin hne
  have htot : 0 < (shiftedFitness ((candFitness population
      elite_size).map FVal.toQ)).sum := shiftedFitness_sum_pos _ hqne
  refine ⟨?_, ?_, selectionProbs_length _⟩
  · rw [heq, hshape]
  · intro p hp
    refine ⟨selectionProbs_pos _ p hp, ?_⟩
    rw [heq] at hp
    rcases List.mem_map.mp hp with ⟨x, hx, rfl⟩
    rw [div_le_one htot]
    apply List.single_le_sum _ x hx
    intro y hy
    exact le_trans (le_of_lt epsShift_pos) (shiftedFitness_ge_eps _ y hy)

/-- C8 witness: a three-robot population with all-negative finite
fitness and elite size 1. -/
theorem select_probs_all_negative_witness :
    (∀ p ∈ selectionProbs (candFitness
        [⟨0, .fin (-1)⟩, ⟨1, .fin (-2)⟩, ⟨2, .fin (-3)⟩] 1), 0 < p ∧ p ≤ 1)
    ∧ (selectionProbs (candFitness
        [⟨0, .fin (-1)⟩, ⟨1, .fin (-2)⟩, ⟨2, .fin (-3)⟩] 1)).length = 2 := by
  have h := select_probs_all_negative
    [⟨0, .fin (-1)⟩, ⟨1, .fin (-2)⟩, ⟨2, .fin (-3)⟩] 1
    (by decide)
    (by
      intro r hr
      fin_cases hr
      · exact ⟨-1, rfl, by norm_num⟩
      · exact ⟨-2, rfl, by norm_num⟩
      · exact ⟨-3, rfl, by norm_num⟩)
  exact ⟨h.2.1, h.2.2⟩

/-- C1 witness: a concrete population of three distinct robots, elite
size 1, and the draw picking candidate positions 1 then 0. -/
theorem select_parents_spec_witness :
    select_parents
        [⟨0, .fin 5⟩, ⟨1, .fin 3⟩, ⟨2, .fin 1⟩] 1 [1, 0]
      = [⟨0, .fin 5⟩, ⟨2, .fin 1⟩, ⟨1, .fin 3⟩]
    ∧ (select_parents
        [⟨0, .fin 5⟩, ⟨1, .fin 3⟩, ⟨2, .fin 1⟩] 1 [1, 0]).Nodup := by
  have h := select_parents_spec
    [⟨0, .fin 5⟩, ⟨1, .fin 3⟩, ⟨2, .fin 1⟩] 1 [1, 0]
    (by decide) (by decide) (by decide) (by decide)
  refine ⟨?_, h.2.2.2⟩
  rw [h.1]
  decide

/-! ## Robot accounting (`src/core/worker.py`) -/

/-- A held position `{'symbol', 'qty', 'avg_price'}` (worker.py line 16). -/
structure Position where
  symbol : String
  qty : ℚ
  avg_price : ℚ
deriving DecidableEq

/-- One recorded trade (timestamps are omitted from the model).  A buy
carries `cost`, a sell carries `revenue`. -/
inductive TradeRec where
  | buy (price qty cost : ℚ) (orderId : Option Nat)
  | sell (price qty revenue : ℚ) (orderId : Option Nat)
deriving DecidableEq

/-- The robot state fields `trade` reads and writes. -/
structure RobotState where
  balance : ℚ
  positions : List Position
  trades : List TradeRec
  balance_history : List ℚ
  returns : List ℚ
deriving DecidableEq

/-- `Robot._get_position` (worker.py lines 27–31): the first stored
position with the given symbol. -/
def get_position (positions : List Position) (symbol : String) :
    Option Position :=
  positions.find? fun p => p.symbol == symbol

/-- In-place mutation of the first position with the given symbol. -/
def modifyFirst (positions : List Position) (symbol : String)
    (f : Position → Position) : List Position :=
  match positions with
  | [] => []
  | p :: ps =>
    if p.symbol == symbol then f p :: ps
    else p :: modifyFirst ps symbol f

/-- `Robot._update_position_on_buy` (worker.py lines 33–45): append a
new position, or update the first matching one in place (weighted
average price), with the `total_qty ≤ 0` anomaly branch that zeroes the
position. -/
def update_position_on_buy (positions : List Position) (symbol : String)
    (qty price : ℚ) : List Position :=
  match get_position positions symbol with
  | none => positions ++ [⟨symbol, qty, price⟩]
  | some pos =>
    if pos.qty + qty ≤ 0 then
      modifyFirst positions symbol fun p => ⟨p.symbol, 0, 0⟩
    else
      modifyFirst positions symbol fun p =>
        ⟨p.symbol, p.qty + qty,
         (p.avg_price * p.qty + price * qty) / (p.qty + qty)⟩

/-- `Robot._update_position_on_sell` (worker.py lines 47–54): decrement
the first matching position in place, then drop every position with the
symbol once the decremented qty is ≤ 1e-12. -/
def update_position_on_sell (positions : List Position) (symbol : String)
    (qty : ℚ) : List Position :=
  match get_position positions symbol with
  | none => positions
  | some pos =>
    if pos.qty - qty ≤ epsShift then
      (modifyFirst positions symbol fun p =>
        ⟨p.symbol, p.qty - qty, p.avg_price⟩).filter
          fun p => !(p.symbol == symbol)
    else
      modifyFirst positions symbol fun p =>
        ⟨p.symbol, p.qty - qty, p.avg_price⟩

/-- `Robot._min_qty_for_symbol` (worker.py lines 56–62). -/
def min_qty_for_symbol (symbol : String) : ℚ :=
  if symbol = "BTCUSDT" then 1/1000
  else if symbol = "DOGEUSDT" then 100
  else 1

/-- The signal produced by the external `Strategy.generate_signal`. -/
structure Signal where
  action : String
  qty : ℚ
  price : ℚ

/-- The dict returned by `client.place_order`: `executedPrice = none`
models a fill dict without that key (the signal price is then used). -/
structure Order where
  executedPrice : Option ℚ
  orderId : Option Nat

/-- The outcome of the order collaborator call: `Except.error` models a
raised exception, `Except.ok none` a falsy return. -/
abbrev OrderResult := Except Unit (Option Order)

/-- `Robot.trade` (worker.py lines 64–152) given the signal already
produced by the strategy and the outcome of the (at most one) order
call.  `self.last_symbol` is bookkeeping outside the accounting state
and is omitted. -/
def trade (st : RobotState) (symbol : String) (signal : Signal)
    (order_result : OrderResult) : Bool × RobotState :=
  if signal.action = "buy" then
    if st.balance < signal.price * signal.qty then (false, st)
    else
      match order_result with
      | .error _ => (false, st)
      | .ok none => (false, st)
      | .ok (some order) =>
        (true,
         { st with
           balance := st.balance
             - (order.executedPrice.getD signal.price) * signal.qty,
           positions := update_position_on_buy st.positions symbol
             signal.qty (order.executedPrice.getD signal.price),
           trades := st.trades
             ++ [.buy (order.executedPrice.getD signal.price) signal.qty
                  ((order.executedPrice.getD signal.price) * signal.qty)
                  order.orderId] })
  else if signal.action = "sell" then
    match get_position st.positions symbol with
    | none => (false, st)
    | some pos =>
      if pos.qty ≤ 0 then (false, st)
      else if min signal.qty pos.qty < min_qty_for_symbol symbol then
        (false, st)
      else
        match order_result with
        | .error _ => (false, st)
        | .ok none => (false, st)
        | .ok (some order) =>
          (true,
           { st with
             balance := st.balance
               + (order.executedPrice.getD signal.price)
                 * min signal.qty pos.qty,
             positions := update_position_on_sell st.positions symbol
               (min signal.qty pos.qty),
             trades := st.trades
               ++ [.sell (order.executedPrice.getD signal.price)
                    (min signal.qty pos.qty)
                    ((order.executedPrice.getD signal.price)
                      * min signal.qty pos.qty)
                    order.orderId] })
  else (false, st)

/-- C6: every non-fill path of `Robot.trade` — a buy whose estimated
notional `price·qty` exceeds the balance, a sell with no stored
position or non-positive held qty, a sell whose clamped qty is below
the venue minimum lot, an exception raised by the order collaborator,
or a falsy order result — returns `False` and leaves the balance,
positions, trades, balance history and returns exactly unchanged. -/
theorem trade_failure_frame (st : RobotState) (symbol : String)
    (signal : Signal) (order_result : OrderResult) :
    (signal.action = "buy" → st.balance < signal.price * signal.qty →
      trade st symbol signal order_result = (false, st))
    ∧ (signal.action = "sell" →
        get_position st.positions symbol = none →
        trade st symbol signal order_result = (false, st))
    ∧ (∀ pos, signal.action = "sell" →
        get_position st.positions symbol = some pos → pos.qty ≤ 0 →
        trade st symbol signal order_result = (false, st))
    ∧ (∀ pos, signal.action = "sell" →
        get_position st.positions symbol = some pos →
        min signal.qty pos.qty < min_qty_for_symbol symbol →
        trade st symbol signal order_result = (false, st))
    ∧ (order_result = .error () →
        trade st symbol signal order_result = (false, st))
    ∧ (order_result = .ok none →
        trade st symbol signal order_result = (false, st)) := by
  refine ⟨?_, ?_, ?_, ?_, ?_, ?_⟩
  · intro ha hb
    rw [trade.eq_def, if_pos ha, if_pos hb]
  · intro ha hp
    have hab : ¬ signal.action = "buy" := by rw [ha]; decide
    rw [trade.eq_def, if_neg hab, if_pos ha, hp]
  · intro pos ha hp hq
    have hab : ¬ signal.action = "buy" := by rw [ha]; decide
    rw [trade.eq_def, if_neg hab, if_pos ha, hp]
    dsimp only
    rw [if_pos hq]
  · intro pos ha hp hq
    have hab : ¬ signal.action = "buy" := by rw [ha]; decide
    rw [trade.eq_def, if_neg hab, if_pos ha, hp]
    dsimp only
    by_cases hq0 : pos.qty ≤ 0
    · rw [if_pos hq0]
    · rw [if_neg hq0, if_pos hq]
  · intro he
    subst he
    rw [trade.eq_def]
    by_cases hb : signal.action = "buy"
    · rw [if_pos hb]
      split_ifs <;> rfl
    · rw [if_neg hb]
      by_cases hs : signal.action = "sell"
      · rw [if_pos hs]
        cases hpos : get_position st.positions symbol with
        | none => rfl
        | some pos =>
          dsimp only
          split_ifs <;> rfl
      · rw [if_neg hs]
  · intro he
    subst he
    rw [trade.eq_def]
    by_cases hb : signal.action = "buy"
    · rw [if_pos hb]
      split_ifs <;> rfl
    · rw [if_neg hb]
      by_cases hs : signal.action = "sell"
      · rw [if_pos hs]
        cases hpos : get_position st.positions symbol with
        | none => rfl
        | some pos =>
          dsimp only
          split_ifs <;> rfl
      · rw [if_neg hs]

/-- A concrete robot state for the C6 witness. -/
def stPoor : RobotState :=
  { balance := 10, positions := [], trades := [],
    balance_history := [10], returns := [] }

/-- C6 witness: a buy signal for 1 unit at price 100 against a balance
of 10 is rejected with the state unchanged; an exception outcome is
likewise rejected unchanged. -/
theorem trade_failure_frame_witness :
    trade stPoor "BTCUSDT" ⟨"buy", 1, 100⟩ (.ok (some ⟨some 100, some 7⟩))
      = (false, stPoor)
    ∧ trade stPoor "BTCUSDT" ⟨"sell", 1, 100⟩ (.error ())
      = (false, stPoor) := by
  constructor
  · exact (trade_failure_frame stPoor "BTCUSDT" ⟨"buy", 1, 100⟩
      (.ok (some ⟨some 100, some 7⟩))).1 rfl (by norm_num [stPoor])
  · exact (trade_failure_frame stPoor "BTCUSDT" ⟨"sell", 1, 100⟩
      (.error ())).2.2.2.2.1 rfl

theorem mem_modifyFirst (ps : List Position) (sym : String)
    (f : Position → Position) (pos : Position)
    (hfind : get_position ps sym = some pos) :
    ∀ x ∈ modifyFirst ps sym f, x ∈ ps ∨ x = f pos := by
  induction ps with
  | nil => intro x hx; simp [modifyFirst] at hx
  | cons p ps ih =>
    intro x hx
    rw [modifyFirst] at hx
    by_cases h : p.symbol == sym
    · rw [if_pos h] at hx
      have hp : pos = p := by
        rw [get_position, List.find?] at hfind
        rw [h] at hfind
        exact (Option.some_inj.mp hfind).symm
      rcases List.mem_cons.mp hx with rfl | h2
      · exact Or.inr (by rw [hp])
      · exact Or.inl (List.mem_cons_of_mem _ h2)
    · rw [if_neg h] at hx
      have hfind' : get_position ps sym = some pos := by
        rw [get_position, List.find?] at hfind
        rw [Bool.not_eq_true] at h
        rw [h] at hfind
        exact hfind
      rcases List.mem_cons.mp hx with rfl | h2
      · exact Or.inl (List.mem_cons_self _ _)
      · rcases ih hfind' x h2 with h3 | h3
        · exact Or.inl (List.mem_cons_of_mem _ h3)
        · exact Or.inr h3

theorem get_position_mem (ps : List Position) (sym : String)
    (pos : Position) (h : get_position ps sym = some pos) : pos ∈ ps :=
  List.mem_of_find?_eq_some h

theorem get_position_symbol (ps : List Position) (sym : String)
    (pos : Position) (h : get_position ps sym = some pos) :
    pos.symbol = sym := by
  have := List.find?_some h
  simpa using this

/-- C9 (amended): the invariant "every stored position has qty > ε"
(ε = 1e-12) is preserved by a sell update of *any* qty and by a buy
update whose executed qty exceeds ε; a buy of qty ≤ ε can violate it by
*creating* a fresh sub-ε position (see the counterexample), so the
claim's `qty > 0` bound must be strengthened to `qty > ε`. -/
theorem position_update_eps_invariant (positions : List Position)
    (symbol : String) (qty price : ℚ)
    (hinv : ∀ p ∈ positions, epsShift < p.qty) :
    (epsShift < qty → ∀ p ∈ update_position_on_buy positions symbol qty price,
      epsShift < p.qty)
    ∧ (∀ p ∈ update_position_on_sell positions symbol qty,
      epsShift < p.qty) := by
  have heps : (0 : ℚ) < epsShift := epsShift_pos
  constructor
  · intro hqty p hp
    rw [update_position_on_buy] at hp
    cases hfind : get_position positions symbol with
    | none =>
      rw [hfind] at hp
      rcases List.mem_append.mp hp with h | h
      · exact hinv p h
      · rcases List.mem_singleton.mp h with rfl
        exact hqty
    | some pos =>
      rw [hfind] at hp
      dsimp only at hp
      have hposq : epsShift < pos.qty :=
        hinv pos (get_position_mem _ _ _ hfind)
      have hno : ¬ pos.qty + qty ≤ 0 := by
        push_neg
        linarith
      rw [if_neg hno] at hp
      rcases mem_modifyFirst positions symbol _ pos hfind p hp with h | h
      · exact hinv p h
      · rw [h]
        show epsShift < pos.qty + qty
        linarith
  · intro p hp
    rw [update_position_on_sell] at hp
    cases hfind : get_position positions symbol with
    | none =>
      rw [hfind] at hp
      exact hinv p hp
    | some pos =>
      rw [hfind] at hp
      dsimp only at hp
      by_cases hle : pos.qty - qty ≤ epsShift
      · rw [if_pos hle] at hp
        have hmem := List.mem_of_mem_filter hp
        have hpred := List.of_mem_filter hp
        rcases mem_modifyFirst positions symbol _ pos hfind p hmem with h | h
        · exact hinv p h
        · exfalso
          have hsym : p.symbol = symbol := by
            rw [h]
            show pos.symbol = symbol
            exact get_position_symbol _ _ _ hfind
          rw [hsym] at hpred
          simp at hpred
      · rw [if_neg hle] at hp
        rcases mem_modifyFirst positions symbol _ pos hfind p hp with h | h
        · exact hinv p h
        · rw [h]
          show epsShift < pos.qty - qty
          linarith

/-- C9 counterexample: starting from the empty (invariant-satisfying)
position set, a buy with executed qty `1e-12/2 > 0` stores a position
whose qty is ≤ ε — the claimed preservation under every buy with
`qty > 0` fails; only `qty > ε` is preserved. -/
theorem position_buy_eps_counterexample :
    (0 : ℚ) < epsShift / 2
    ∧ update_position_on_buy [] "BTCUSDT" (epsShift / 2) 100
        = [⟨"BTCUSDT", epsShift / 2, 100⟩]
    ∧ ¬ epsShift < (Position.mk "BTCUSDT" (epsShift / 2) 100).qty := by
  refine ⟨by norm_num [epsShift], ?_, by norm_num [epsShift]⟩
  rw [update_position_on_buy]
  rfl

/-- C9 witness: concrete preservation — buying 1 unit onto a held
position of 2 and selling 3/2 from a position of 2 both leave only
above-ε positions. -/
theorem position_update_eps_invariant_witness :
    (∀ p ∈ update_position_on_buy [⟨"BTCUSDT", 2, 100⟩] "BTCUSDT" 1 110,
      epsShift < p.qty)
    ∧ (∀ p ∈ update_position_on_sell [⟨"BTCUSDT", 2, 100⟩] "BTCUSDT" (3/2),
      epsShift < p.qty) := by
  have h := position_update_eps_invariant [⟨"BTCUSDT", 2, 100⟩] "BTCUSDT"
    1 110 (by
      intro p hp
      rcases List.mem_singleton.mp hp with rfl
      norm_num [epsShift])
  have h2 := position_update_eps_invariant [⟨"BTCUSDT", 2, 100⟩] "BTCUSDT"
    (3/2) 110 (by
      intro p hp
      rcases List.mem_singleton.mp hp with rfl
      norm_num [epsShift])
  exact ⟨h.1 (by norm_num [epsShift]), h2.2⟩

end BybitEvolution
